import Mathlib

/-!
Verification of the `structs` JSON document store: a shallow embedding of its
path algebra (`src/jsonpath.rs`), store engine (`src/service.rs`), wire
protocol reader (`src/rpc.rs`) and endpoint cleanup (`src/rpc.rs`), with
theorems settling the specification's claims about them.

Strings are modelled as `List Char`.  Rust's `str::find`/`rfind` return byte
indices and slicing happens at those indices; since the separator is the
one-byte character `.`, slicing at its byte index is the same as slicing the
character sequence at the character index, so the character-level model is
exact.  JSON objects and the document mapping are `serde_json::Map` /
`BTreeMap` respectively, both ordered maps over `String`; they are modelled
as association lists kept in ascending key order by an ordered insert.
-/

/-- JSON values (`serde_json::Value`).  Numbers are modelled as integers,
which covers every number the claims mention (array indices and stored
integral payloads); nothing in the embedded code inspects a number except to
build index lists. -/
inductive Json where
  | null : Json
  | bool : Bool → Json
  | num : Int → Json
  | str : List Char → Json
  | arr : List Json → Json
  | obj : List (List Char × Json) → Json

/-- Lexicographic byte order on strings, the order of `BTreeMap<String, _>`
and of `serde_json`'s (default, sorted) object map. -/
def strLt : List Char → List Char → Bool
  | [], [] => false
  | [], _ :: _ => true
  | _ :: _, [] => false
  | a :: as, b :: bs => if a < b then true else if b < a then false else strLt as bs

/-- `BTreeMap::get` / `serde_json::Map::get`: lookup by key. -/
def storeGet : List (List Char × Json) → List Char → Option Json
  | [], _ => none
  | (k', v') :: rest, k => if k = k' then some v' else storeGet rest k

/-- `BTreeMap::insert` / `serde_json::Map::insert`: insert or replace,
keeping the entries in ascending key order. -/
def storeInsert : List (List Char × Json) → List Char → Json → List (List Char × Json)
  | [], k, v => [(k, v)]
  | (k', v') :: rest, k, v =>
    if k = k' then (k, v) :: rest
    else if strLt k k' then (k, v) :: (k', v') :: rest
    else (k', v') :: storeInsert rest k v

/-- `BTreeMap::remove`: drop the entry with the given key, if present. -/
def storeRemove : List (List Char × Json) → List Char → List (List Char × Json)
  | [], _ => []
  | (k', v') :: rest, k => if k = k' then rest else (k', v') :: storeRemove rest k

/-- The document mapping owned by the store engine
(`BTreeMap<String, serde_json::Value>`). -/
abbrev Store := List (List Char × Json)

namespace Path

/-- The path separator (`jsonpath.rs`: `const SEP: &str = "."`). -/
def SEP : Char := '.'

/-- `str::find(SEP)`: index of the first separator, if any. -/
def findSep : List Char → Option Nat
  | [] => none
  | c :: cs => if c = SEP then some 0 else (findSep cs).map (· + 1)

/-- `str::rfind(SEP)`: index of the last separator, if any. -/
def rfindSep : List Char → Option Nat
  | [] => none
  | c :: cs =>
    match rfindSep cs with
    | some i => some (i + 1)
    | none => if c = SEP then some 0 else none

/-- `usize::from_str`: an optional leading plus sign followed by at least one
decimal digit.  Overflow is not modelled; an overflowing index would be
rejected by Rust and is in any case out of bounds for every real array. -/
def parseUsize (s : List Char) : Option Nat :=
  let digits := match s with
    | '+' :: rest => rest
    | _ => s
  if digits = [] ∨ ¬ digits.all Char.isDigit then none
  else some (digits.foldl (fun n c => n * 10 + (c.toNat - 48)) 0)

/-- `Path::next`: split on the first separator; with no separator the whole
non-empty string is the sole segment. -/
def next (p : List Char) : Option (List Char) × Option (List Char) :=
  match findSep p with
  | some x => (some (p.take x), if p.length > x then some (p.drop (x + 1)) else none)
  | none => (if p.length > 0 then some p else none, none)

/-- `Path::_trim`'s loop body, iterated: peel the last segment `c` times,
remembering the most recently removed segment. -/
def trimAux : List Char → Option (List Char) → Nat → Option (List Char) × Option (List Char)
  | p, n, 0 => (some p, n)
  | p, _, c + 1 =>
    match rfindSep p with
    | some x => trimAux (p.take x) (some (p.drop (x + 1))) c
    | none => (none, none)

/-- `Path::_trim`: remove the last `c` segments, returning the shortened path
and the segment removed last. -/
def trim (p : List Char) (c : Nat) : Option (List Char) × Option (List Char) :=
  trimAux p none c

/-- `jsonpath::json_deref`: member lookup in an object, parsed-index lookup
in an array, nothing for scalars. -/
def json_deref (name : List Char) : Json → Option Json
  | .null => none
  | .bool _ => none
  | .num _ => none
  | .str _ => none
  | .obj v => storeGet v name
  | .arr v =>
    match parseUsize name with
    | some i => if i < v.length then v[i]? else none
    | none => none

/-- `jsonpath::index_array`: parse the segment as an index and check bounds. -/
def index_array (value : List Json) (name : List Char) : Option Nat :=
  match parseUsize name with
  | some i => if value.length > i then some i else none
  | none => none

/-- `Path::deref`: resolve the first segment against a value, returning the
resolved value and the remaining path; an unresolvable segment returns the
whole path back. -/
def deref (p : List Char) (value : Json) : Option Json × Option (List Char) :=
  let nr := next p
  let v := match nr.1 with
    | some n => json_deref n value
    | none => none
  match v with
  | some v => (some v, nr.2)
  | none => (none, some p)

theorem findSep_lt_length {p : List Char} {x : Nat} (h : findSep p = some x) :
    x < p.length := by
  induction p generalizing x with
  | nil => simp [findSep] at h
  | cons c cs ih =>
    by_cases hc : c = SEP
    · simp only [findSep, hc, if_pos, Option.some.injEq] at h
      simp only [List.length_cons]
      omega
    · simp only [findSep, hc, if_neg, not_false_iff, Option.map_eq_some'] at h
      obtain ⟨y, hy, hx⟩ := h
      have := ih hy
      simp only [List.length_cons]
      omega

theorem deref_some_rest_length {p : List Char} {v v' : Json} {r : List Char}
    (h : deref p v = (some v', some r)) : r.length < p.length := by
  unfold deref next at h
  cases hf : findSep p with
  | none =>
    rw [hf] at h
    simp only at h
    split at h <;> simp_all
  | some x =>
    have hx := findSep_lt_length hf
    rw [hf] at h
    simp only at h
    split at h
    · rw [Prod.mk.injEq] at h
      have h2 := h.2
      rw [if_pos hx] at h2
      have : r = p.drop (x + 1) := (Option.some.inj h2).symm
      subst this
      simp only [List.length_drop]
      omega
    · simp at h

/-- `Path::find`: repeatedly dereference segments until the path is exhausted
or a segment fails to resolve. -/
def find (p : List Char) (value : Json) : Option Json × Option (List Char) :=
  match h : deref p value with
  | (some v, some r) => find r v
  | (some v, none) => (some v, none)
  | (none, some r) => (none, some r)
  | (none, none) => (none, none)
termination_by p.length
decreasing_by
  exact deref_some_rest_length h

/-- `Path::value`: the resolved value on an exact, fully-consumed match. -/
def value (p : List Char) (v : Json) : Option Json :=
  match find p v with
  | (some v, none) => some v
  | _ => none

end Path

/-- The variants of `error::Error` that the embedded store-engine code can
produce (`Malformed`, `NotFound`); the other variants belong to I/O and
channel plumbing outside the embedding. -/
inductive Error where
  | malformed : Error
  | notFound : Error
deriving DecidableEq

/-- `impl fmt::Display for Error`, restricted to the embedded variants. -/
def Error.message : Error → String
  | .malformed => "Malformed"
  | .notFound => "Not found"

/-- Verb constants from `rpc.rs`. -/
def CMD_SET : String := "set"

def CMD_GET : String := "get"

def CMD_RANGE : String := "range"

def CMD_DELETE : String := "delete"

def CMD_SHUTDOWN : String := "stop"

/-- A client-to-service `rpc::Operation` as the store engine receives it: a
verb, positional arguments (path strings), and an optional payload.  On the
wire the payload is a JSON text; the engine immediately decodes it
(`serde_json::from_str`), so the model carries the decoded value.  `none`
models an absent payload (the engine substitutes JSON null). -/
structure Operation where
  name : String
  args : List (List Char)
  data : Option Json

/-- A service-to-client reply `rpc::Operation`, one constructor per `new_*`
builder used by the engine: `new_found` carries the resolved value (sent as
its JSON text, which decodes back to a structurally equal value), `new_none`
carries the queried path, `new_error` carries a message string. -/
inductive Reply where
  | found : List Char → Json → Reply
  | none : List Char → Reply
  | ok : Reply
  | error : String → Reply

/-- `service::fetch`: split the key off the path, look it up, and resolve any
remaining path with `Path::find`. -/
def fetch (store : Store) (key : List Char) : Except Error Json :=
  match Path.next key with
  | (Option.none, _) => .error .malformed
  | (Option.some k, rest) =>
    let dr : Option Json × Option (List Char) :=
      match storeGet store k with
      | some data =>
        match rest with
        | some path => Path.find path data
        | none => (some data, none)
      | none => (none, none)
    match dr with
    | (_, some _) => .error .notFound
    | (some data, none) => .ok data
    | (none, none) => .error .notFound

/-- `service::write`: a top-level set inserts the payload directly; a nested
set trims the leaf segment off the remainder, resolves the parent path
against a clone of the stored value, mutates the parent container, and
stores the result back under the top-level key.  Errors leave the store
unchanged (the Rust code returns before its `insert`). -/
def write (store : Store) (key : List Char) (path : Option (List Char)) (val : Json) :
    Except Error (Store × Json) :=
  match path with
  | none => .ok (storeInsert store key val, val)
  | some path =>
    let pl := Path.trim path 1
    match storeGet store key with
    | none => .error .notFound
    | some data =>
      let rval : Option Json :=
        match pl.1 with
        | some pp => Path.value pp data
        | none => some data
      match pl.2 with
      | some leaf =>
        match rval with
        | none => .error .notFound
        | some base =>
          match base with
          | .obj v =>
            let base := Json.obj (storeInsert v leaf val)
            .ok (storeInsert store key base, base)
          | .arr v =>
            match Path.index_array v leaf with
            | some i =>
              let base := Json.arr (v.set i val)
              .ok (storeInsert store key base, base)
            | none => .error .malformed
          | _ => .error .malformed
      | none => .error .notFound

/-- `service::run_get`: one path argument; `found` with the resolved value,
`none` when the fetch misses, a propagated (logged, reply-less) error
otherwise. -/
def run_get (store : Store) (op : Operation) : Except Error Reply :=
  match op.args with
  | [name] =>
    match fetch store name with
    | .ok data => .ok (.found name data)
    | .error e =>
      match e with
      | .notFound => .ok (.none name)
      | _ => .error e
  | _ => .error .malformed

/-- `service::run_range`: resolve like `run_get`; arrays yield their index
list, objects their key list in map order, scalars `none`. -/
def run_range (store : Store) (op : Operation) : Except Error Reply :=
  match op.args with
  | [name] =>
    match fetch store name with
    | .error e =>
      match e with
      | .notFound => .ok (.none name)
      | _ => .error e
    | .ok data =>
      let range : Option (List Json) :=
        match data with
        | .arr v => some ((List.range v.length).map fun e => Json.num (Int.ofNat e))
        | .obj v => some (v.map fun e => Json.str e.1)
        | _ => none
      match range with
      | some range => .ok (.found name (.arr range))
      | none => .ok (.none name)
  | _ => .error .malformed

/-- `service::run_set`: one path argument; split off the top-level key and
hand the rest to `write`; the outcome is an `ok` or `error` reply. -/
def run_set (store : Store) (op : Operation) : Except Error (Store × Reply) :=
  match op.args with
  | [key] =>
    let data := match op.data with
      | some d => d
      | none => Json.null
    let res : Except Error (Store × Json) :=
      match Path.next key with
      | (some k, some path) => write store k (some path) data
      | (some k, none) => write store k none data
      | _ => .error .malformed
    match res with
    | .ok (store, _) => .ok (store, .ok)
    | .error err => .ok (store, .error err.message)
  | _ => .error .malformed

/-- `service::run_delete`: one argument, taken verbatim as a top-level key;
always replies `ok`. -/
def run_delete (store : Store) (op : Operation) : Except Error (Store × Reply) :=
  match op.args with
  | [key] => .ok (storeRemove store key, .ok)
  | _ => .error .malformed

/-- The observable effect of one iteration of `service::run`'s loop on one
request: the document mapping afterwards, the reply sent on the request's
one-shot channel (if any), whether `poll_tx.send(())` ran (the watchdog
notification, when an idle timeout is configured), whether the loop `break`s,
whether an error was propagated out of `run` by `?` (ending the engine), and
whether a per-request error was logged. -/
structure StepResult where
  store : Store
  reply : Option Reply
  notified : Bool
  halted : Bool
  fatal : Option Error
  logged : Bool

/-- The body of `service::run`'s loop for one received request.  `get`,
`range` and `set` catch their errors (logged, loop continues); the `delete`
arm propagates errors with `?` out of `run`; `delete` in finalize mode
`break`s when the mapping became empty, and `stop` always `break`s — both
`break` paths skip the watchdog notification at the bottom of the loop. -/
def step (finalize : Bool) (store : Store) (op : Operation) : StepResult :=
  if op.name = CMD_GET then
    match run_get store op with
    | .ok r => ⟨store, some r, true, false, none, false⟩
    | .error _ => ⟨store, none, true, false, none, true⟩
  else if op.name = CMD_RANGE then
    match run_range store op with
    | .ok r => ⟨store, some r, true, false, none, false⟩
    | .error _ => ⟨store, none, true, false, none, true⟩
  else if op.name = CMD_SET then
    match run_set store op with
    | .ok (store, r) => ⟨store, some r, true, false, none, false⟩
    | .error _ => ⟨store, none, true, false, none, true⟩
  else if op.name = CMD_DELETE then
    match run_delete store op with
    | .ok (store, r) =>
      if finalize ∧ store.length = 0 then ⟨store, some r, false, true, none, false⟩
      else ⟨store, some r, true, false, none, false⟩
    | .error e => ⟨store, none, false, false, some e, false⟩
  else if op.name = CMD_SHUTDOWN then
    ⟨store, some .ok, false, true, none, false⟩
  else
    ⟨store, none, true, false, none, false⟩

/-- `service::run`'s loop over a queue of requests: each request is processed
by `step`; a `break` ends the loop normally and a propagated error ends it
with that error; either way the remaining requests are not processed.
Returns the final mapping, the replies (one slot per processed request) and
the propagated error, if any. -/
def runLoop (finalize : Bool) (store : Store) :
    List Operation → Store × List (Option Reply) × Option Error
  | [] => (store, [], none)
  | op :: ops =>
    let r := step finalize store op
    match r.fatal with
    | some e => (r.store, [r.reply], some e)
    | none =>
      if r.halted then (r.store, [r.reply], none)
      else
        let rest := runLoop finalize r.store ops
        (rest.1, r.reply :: rest.2.1, rest.2.2)

/-- Rust `str::trim`: strip leading and trailing whitespace. -/
def trimWs (l : List Char) : List Char :=
  ((l.dropWhile Char.isWhitespace).reverse.dropWhile Char.isWhitespace).reverse

/-- Splitting a line at every occurrence of a separator character, empty
pieces preserved: the result of `rpc::read_cmd`'s loop of
`split_once(" ")` calls (each iteration pushes the piece before the first
remaining separator, the final iteration pushes what is left, so the split
never yields zero pieces). -/
def splitAll (sep : Char) : List Char → List (List Char)
  | [] => [[]]
  | c :: cs =>
    if c = sep then [] :: splitAll sep cs
    else
      match splitAll sep cs with
      | t :: ts => (c :: t) :: ts
      | [] => [[c]]

/-- An `rpc::Operation` as `read_cmd` builds it: verb token, argument
tokens, and the raw payload line, all kept as text. -/
structure WireOp where
  name : List Char
  args : List (List Char)
  data : Option (List Char)

/-- Wire spellings of the payload-carrying verbs recognised by `read_cmd`. -/
def SET_W : List Char := ['s', 'e', 't']

def FOUND_W : List Char := ['f', 'o', 'u', 'n', 'd']

def ERROR_W : List Char := ['e', 'r', 'r', 'o', 'r']

/-- `rpc::read_cmd` over a stream modelled as the list of its remaining
lines (each without its terminator; an empty list is end-of-stream, which is
what makes `read_line` return 0).  Returns `none` on a clean end of stream,
otherwise the parsed operation and the lines left unread. -/
def read_cmd (input : List (List Char)) : Except Error (Option WireOp × List (List Char)) :=
  match input with
  | [] => .ok (none, [])
  | line :: input =>
    let res := trimWs line
    let args := splitAll ' ' res
    if args.length < 1 then .error .malformed
    else
      let verb := args.headD []
      if verb = SET_W ∨ verb = FOUND_W then
        match input with
        | [] => .error .malformed
        | line :: input => .ok (some ⟨verb, args.tail, some (trimWs line)⟩, input)
      else .ok (some ⟨verb, args.tail, none⟩, input)

/-- `std::fs::remove_file` on a filesystem modelled as whether the endpoint
file exists: succeeds and removes the file when it is present, fails
(`NotFound`) when it is not.  Result: (success flag, file present after). -/
def remove_file : Bool → Bool × Bool
  | true => (true, false)
  | false => (false, false)

namespace Socket

/-- `rpc::Socket::cleanup`: exactly `fs::remove_file(&self.path)`, with no
existence guard around it. -/
def cleanup (present : Bool) : Bool × Bool :=
  remove_file present

end Socket

theorem findSep_eq_none {p : List Char} (h : Path.SEP ∉ p) : Path.findSep p = none := by
  induction p with
  | nil => rfl
  | cons c cs ih =>
    simp only [List.mem_cons, not_or] at h
    have hc : ¬ c = Path.SEP := fun hc => h.1 hc.symm
    simp [Path.findSep, hc, ih h.2]

theorem next_no_sep {p : List Char} (hne : p ≠ []) (h : Path.SEP ∉ p) :
    Path.next p = (some p, none) := by
  have hlen : 0 < p.length := List.length_pos.mpr hne
  simp [Path.next, findSep_eq_none h, hlen]

theorem next_fst_none {p : List Char} (h : (Path.next p).1 = none) : p = [] := by
  by_contra hne
  cases hf : Path.findSep p with
  | some x => simp [Path.next, hf] at h
  | none =>
    have hlen : 0 < p.length := List.length_pos.mpr hne
    simp [Path.next, hf, hlen] at h

theorem storeGet_insert (s : Store) (k : List Char) (v : Json) :
    storeGet (storeInsert s k v) k = some v := by
  induction s with
  | nil => simp [storeInsert, storeGet]
  | cons hd rest ih =>
    obtain ⟨k', v'⟩ := hd
    by_cases hk : k = k'
    · simp [storeInsert, storeGet, hk]
    · by_cases hlt : strLt k k'
      · simp [storeInsert, storeGet, hk, hlt]
      · simp [storeInsert, storeGet, hk, hlt, ih]

/-- Claim C1: for every key `k` (a nonempty path with no separator, so the
whole path is the top-level key and there is no remainder) and JSON value
`v`, a `set k` with payload `v` replies `ok`, and a `get k` against the
resulting mapping replies `found` with a value structurally equal to `v`. -/
theorem set_then_get_found (s : Store) (k : List Char) (v : Json)
    (hk : k ≠ [] ∧ Path.SEP ∉ k) :
    ∃ s₂, run_set s ⟨CMD_SET, [k], some v⟩ = .ok (s₂, Reply.ok) ∧
      run_get s₂ ⟨CMD_GET, [k], none⟩ = .ok (Reply.found k v) := by
  have hnext : Path.next k = (some k, none) := next_no_sep hk.1 hk.2
  refine ⟨storeInsert s k v, ?_, ?_⟩
  · simp [run_set, hnext, write]
  · simp [run_get, fetch, hnext, storeGet_insert]

/-- Witness for C1 at a concrete input. -/
theorem set_then_get_found_instance :
    ∃ s₂, run_set [] ⟨CMD_SET, [['a']], some (Json.num 1)⟩ = .ok (s₂, Reply.ok) ∧
      run_get s₂ ⟨CMD_GET, [['a']], none⟩ = .ok (Reply.found ['a'] (Json.num 1)) :=
  set_then_get_found [] ['a'] (Json.num 1) (by decide)

/-- Claim C4: a `set` whose path splits into a top-level key and a nested
remainder, where the key is absent from the mapping, replies `error` with
the not-found message and leaves the mapping exactly as it was. -/
theorem nested_set_missing_key_error (s : Store) (arg k p : List Char) (v : Json)
    (hnext : Path.next arg = (some k, some p)) (hmiss : storeGet s k = none) :
    run_set s ⟨CMD_SET, [arg], some v⟩ = .ok (s, Reply.error (Error.message .notFound)) := by
  simp [run_set, hnext, write, hmiss]

/-- Witness for C4 at a concrete input. -/
theorem nested_set_missing_key_error_instance :
    run_set [] ⟨CMD_SET, [['c', '.', 'y']], some (Json.num 1)⟩ =
      .ok ([], Reply.error (Error.message .notFound)) :=
  nested_set_missing_key_error [] ['c', '.', 'y'] ['c'] ['y'] (Json.num 1) rfl rfl

theorem fetch_malformed {s : Store} {p : List Char}
    (h : fetch s p = .error .malformed) : p = [] := by
  rcases hn : Path.next p with ⟨k, rest⟩
  cases k with
  | none => exact next_fst_none (by rw [hn])
  | some k =>
    unfold fetch at h
    rw [hn] at h
    simp only at h
    split at h <;> simp_all

/-- Claim C5 counterexample: on the empty path, `range` does not reply
`none`; the fetch fails as malformed, so the error is propagated and no
reply at all is produced. -/
theorem range_empty_path_cex :
    run_range [] ⟨CMD_RANGE, [([] : List Char)], none⟩ = .error Error.malformed ∧
    (Except.error Error.malformed : Except Error Reply) ≠ .ok (Reply.none []) :=
  ⟨rfl, by simp⟩

/-- Claim C5 (amended to nonempty paths): `range` on a resolvable array of
length `n` replies `found` with exactly the index array `[0, …, n-1]`;
on a resolvable object it replies `found` with the array of its member
names in map order, which is sorted whenever the member list satisfies the
ordered-map invariant; on a resolvable scalar, or when the (nonempty) path
does not resolve, it replies `none`. -/
theorem range_spec (store : Store) (path : List Char) (hp : path ≠ []) :
    (run_range store ⟨CMD_RANGE, [path], none⟩ =
      match fetch store path with
      | .ok (.arr v) =>
        .ok (Reply.found path (.arr ((List.range v.length).map fun e => Json.num (Int.ofNat e))))
      | .ok (.obj v) => .ok (Reply.found path (.arr (v.map fun e => Json.str e.1)))
      | _ => .ok (Reply.none path)) ∧
    (∀ v, fetch store path = .ok (.obj v) →
      List.Chain' (fun a b => strLt a.1 b.1 = true) v →
      List.Chain' (fun a b => strLt a b = true) (v.map fun e => e.1)) := by
  constructor
  · cases hf : fetch store path with
    | ok val => cases val <;> simp [run_range, hf]
    | error e =>
      cases e with
      | notFound => simp [run_range, hf]
      | malformed => exact absurd (fetch_malformed hf) hp
  · intro v _ hc
    exact (List.chain'_map _).mpr hc

/-- Witness for C5 at a concrete input: an object with two members. -/
theorem range_spec_instance :
    run_range [(['b'], Json.obj [(['a'], Json.num 1), (['c'], Json.num 2)])]
        ⟨CMD_RANGE, [['b']], none⟩ =
      .ok (Reply.found ['b'] (Json.arr [Json.str ['a'], Json.str ['c']])) :=
  (range_spec [(['b'], Json.obj [(['a'], Json.num 1), (['c'], Json.num 2)])] ['b']
    (by decide)).1

theorem find_eq (p : List Char) (v : Json) : Path.find p v =
    (match Path.deref p v with
    | (some v', some r) => Path.find r v'
    | (some v', none) => (some v', none)
    | (none, some r) => (none, some r)
    | (none, none) => (none, none)) := by
  rw [Path.find]
  rcases h : Path.deref p v with ⟨_ | a, _ | b⟩ <;> rfl

theorem write_nested_obj (s : Store) (key pth pp leaf : List Char) (data : Json)
    (v : List (List Char × Json)) (val : Json)
    (htrim : Path.trim pth 1 = (some pp, some leaf))
    (hget : storeGet s key = some data)
    (hval : Path.value pp data = some (Json.obj v)) :
    write s key (some pth) val =
      .ok (storeInsert s key (Json.obj (storeInsert v leaf val)),
        Json.obj (storeInsert v leaf val)) := by
  rw [write, htrim]
  simp only [hget, hval]

theorem fetch_rest_notFound (s : Store) (key k rest : List Char) (data : Json)
    (d : Option Json) (r : List Char)
    (hnext : Path.next key = (some k, some rest))
    (hget : storeGet s k = some data)
    (hfind : Path.find rest data = (d, some r)) :
    fetch s key = .error .notFound := by
  unfold fetch
  rw [hnext]
  simp only [hget, hfind]

theorem run_get_none (s : Store) (name : List Char) (d : Option Json)
    (hf : fetch s name = .error .notFound) :
    run_get s ⟨CMD_GET, [name], d⟩ = .ok (Reply.none name) := by
  simp [run_get, hf]

/-- Claim C2 (code bug): nested Set does not behave as specified, on any
shape of remainder.  With the value `{"x": 1}` stored at `a`, a
single-segment nested set `set a.y 2` replies `error "Not found"` and leaves
the store unchanged, because `trim(1)` on the one-segment remainder returns
no leaf at all, although the code's own comment says the root value is then
the parent to update.  With `{"b": {"x": 1}}` stored at `a`, the
multi-segment nested set `set a.b.y 2` replies `ok` but replaces the whole
top-level value with the mutated inner container `{"x": 1, "y": 2}`, so the
subsequent `get a.b.y` replies `none` rather than `found 2` and the sibling
structure under `a` is destroyed. -/
theorem nested_set_diverges :
    (run_set [(['a'], Json.obj [(['x'], Json.num 1)])]
        ⟨CMD_SET, [['a', '.', 'y']], some (Json.num 2)⟩ =
      .ok ([(['a'], Json.obj [(['x'], Json.num 1)])],
        Reply.error (Error.message .notFound))) ∧
    (run_set [(['a'], Json.obj [(['b'], Json.obj [(['x'], Json.num 1)])])]
        ⟨CMD_SET, [['a', '.', 'b', '.', 'y']], some (Json.num 2)⟩ =
      .ok ([(['a'], Json.obj [(['x'], Json.num 1), (['y'], Json.num 2)])], Reply.ok)) ∧
    (run_get [(['a'], Json.obj [(['x'], Json.num 1), (['y'], Json.num 2)])]
        ⟨CMD_GET, [['a', '.', 'b', '.', 'y']], none⟩ =
      .ok (Reply.none ['a', '.', 'b', '.', 'y'])) := by
  refine ⟨rfl, ?_, ?_⟩
  · have hval : Path.value ['b'] (Json.obj [(['b'], Json.obj [(['x'], Json.num 1)])]) =
        some (Json.obj [(['x'], Json.num 1)]) := by
      rw [Path.value, find_eq]; rfl
    have hw := write_nested_obj [(['a'], Json.obj [(['b'], Json.obj [(['x'], Json.num 1)])])]
      ['a'] ['b', '.', 'y'] ['b'] ['y'] (Json.obj [(['b'], Json.obj [(['x'], Json.num 1)])])
      [(['x'], Json.num 1)] (Json.num 2) rfl rfl hval
    have e1 : run_set [(['a'], Json.obj [(['b'], Json.obj [(['x'], Json.num 1)])])]
        ⟨CMD_SET, [['a', '.', 'b', '.', 'y']], some (Json.num 2)⟩ =
        match write [(['a'], Json.obj [(['b'], Json.obj [(['x'], Json.num 1)])])] ['a']
          (some ['b', '.', 'y']) (Json.num 2) with
        | .ok (store, _) => .ok (store, Reply.ok)
        | .error err => .ok ([(['a'], Json.obj [(['b'], Json.obj [(['x'], Json.num 1)])])],
            Reply.error err.message) := by rfl
    rw [e1, hw]
    rfl
  · apply run_get_none
    apply fetch_rest_notFound [(['a'], Json.obj [(['x'], Json.num 1), (['y'], Json.num 2)])]
      ['a', '.', 'b', '.', 'y'] ['a'] ['b', '.', 'y']
      (Json.obj [(['x'], Json.num 1), (['y'], Json.num 2)]) none ['b', '.', 'y'] rfl rfl
    rw [find_eq]; rfl

theorem splitAll_ne_nil (sep : Char) (l : List Char) : splitAll sep l ≠ [] := by
  cases l with
  | nil => simp [splitAll]
  | cons c cs =>
    by_cases h : c = sep
    · simp [splitAll, h]
    · simp only [splitAll, h, if_neg, not_false_iff]
      split <;> simp

/-- Claim C6 (code bug): on the read side only `set` and `found` consume a
payload line; an `error` frame's message line is left unconsumed in the
stream and the parsed operation carries no payload, although the write side
emits (and the client expects) a message line after `error`. -/
theorem read_cmd_error_payload_not_consumed :
    (read_cmd [['e', 'r', 'r', 'o', 'r'], ['o', 'o', 'p', 's']] =
      .ok (some ⟨ERROR_W, [], none⟩, [['o', 'o', 'p', 's']])) ∧
    (read_cmd [['s', 'e', 't', ' ', 'a'], ['1']] =
      .ok (some ⟨SET_W, [['a']], some ['1']⟩, [])) ∧
    (read_cmd [['f', 'o', 'u', 'n', 'd', ' ', 'a'], ['1']] =
      .ok (some ⟨FOUND_W, [['a']], some ['1']⟩, [])) :=
  ⟨rfl, rfl, rfl⟩

/-- Claim C7 (code bug): `Socket::cleanup` is a bare `fs::remove_file`; the
first invocation removes the endpoint file and succeeds, but invoking it
again (the file now gone) fails with an error instead of being a tolerated
no-op. -/
theorem cleanup_not_idempotent :
    Socket.cleanup true = (true, false) ∧
    Socket.cleanup (Socket.cleanup true).2 = (false, false) :=
  ⟨rfl, rfl⟩

/-- Claim C8 counterexample: the protocol requires a payload line after an
`error` verb line, so by the claim an `error` verb line at the very end of
the stream should be a malformed-frame error; instead `read_cmd` (whose
payload match omits `error`, the C6 divergence) returns the operation
successfully. -/
theorem error_eof_no_payload_cex :
    read_cmd [['e', 'r', 'r', 'o', 'r']] = .ok (some ⟨ERROR_W, [], none⟩, []) ∧
    (Except.ok (some (⟨ERROR_W, [], none⟩ : WireOp), ([] : List (List Char))) :
        Except Error (Option WireOp × List (List Char))) ≠ .error .malformed :=
  ⟨rfl, by simp⟩

/-- Claim C8 (amended): end-of-stream before a verb line is a clean
no-more-operations result; a verb line splitting into zero tokens is a
malformed-frame error (vacuously: the splitting loop always yields at least
one, possibly empty, token); end-of-stream where the read side requires a
payload line — which is only for the verbs `set` and `found`, since the
reader omits `error` from its payload match — is a malformed-frame error;
for an `error` verb line at end-of-stream no error is raised. -/
theorem read_cmd_frame_boundaries :
    (read_cmd [] = .ok (none, [])) ∧
    (∀ line rest, splitAll ' ' (trimWs line) = [] →
      read_cmd (line :: rest) = .error .malformed) ∧
    (∀ line, (splitAll ' ' (trimWs line)).headD [] = SET_W ∨
        (splitAll ' ' (trimWs line)).headD [] = FOUND_W →
      read_cmd [line] = .error .malformed) ∧
    (∀ line, ¬ ((splitAll ' ' (trimWs line)).headD [] = SET_W ∨
        (splitAll ' ' (trimWs line)).headD [] = FOUND_W) →
      read_cmd [line] = .ok (some ⟨(splitAll ' ' (trimWs line)).headD [],
        (splitAll ' ' (trimWs line)).tail, none⟩, [])) := by
  refine ⟨rfl, ?_, ?_, ?_⟩
  · intro line rest h
    exact absurd h (splitAll_ne_nil ' ' (trimWs line))
  · intro line h
    have hne := splitAll_ne_nil ' ' (trimWs line)
    have hlen : ¬ (splitAll ' ' (trimWs line)).length < 1 := by
      have := List.length_pos.mpr hne
      omega
    simp only [read_cmd]
    rw [if_neg hlen, if_pos h]
  · intro line h
    have hne := splitAll_ne_nil ' ' (trimWs line)
    have hlen : ¬ (splitAll ' ' (trimWs line)).length < 1 := by
      have := List.length_pos.mpr hne
      omega
    simp only [read_cmd]
    rw [if_neg hlen, if_neg h]

/-- Witness for C8: a `set` verb line at the very end of the stream. -/
theorem read_cmd_frame_boundaries_instance :
    read_cmd [['s', 'e', 't', ' ', 'a']] = .error .malformed :=
  read_cmd_frame_boundaries.2.2.1 ['s', 'e', 't', ' ', 'a'] (Or.inl rfl)

/-- Claim C9 counterexample: a `stop` request `break`s out of the loop
before the watchdog notification at the bottom of the loop body, so no
notification is sent for it. -/
theorem stop_no_poll_cex :
    (step false [] ⟨CMD_SHUTDOWN, [], none⟩).notified = false :=
  rfl

/-- Claim C9 (amended): the engine sends the watchdog notification after a
processed request exactly when the loop goes on to the next request; the
requests that end the loop — `stop`, a finalize-mode `delete` that empties
the mapping, and a `delete` whose error propagates out of the loop — skip
it. -/
theorem poll_iff_loop_continues (f : Bool) (s : Store) (op : Operation) :
    (step f s op).notified = true ↔
      (step f s op).fatal = none ∧ (step f s op).halted = false := by
  unfold step
  split_ifs <;> (repeat' split) <;> simp

/-- Claim C10 (code bug): a `delete` whose argument count is wrong sends no
reply and leaves the mapping unchanged, but its error propagates out of the
engine loop (the `?` in the `delete` arm of `run`), terminating the engine
instead of being logged and skipped; for `get`, `range` and `set` the same
malformed request is logged, no reply is sent, the mapping is unchanged and
the remaining requests are still processed. -/
theorem malformed_delete_fatal (f : Bool) (s : Store) (ops : List Operation) :
    (runLoop f s (⟨CMD_DELETE, [], none⟩ :: ops) = (s, [none], some Error.malformed)) ∧
    (runLoop f s (⟨CMD_GET, [], none⟩ :: ops) =
      ((runLoop f s ops).1, none :: (runLoop f s ops).2.1, (runLoop f s ops).2.2)) ∧
    (runLoop f s (⟨CMD_RANGE, [], none⟩ :: ops) =
      ((runLoop f s ops).1, none :: (runLoop f s ops).2.1, (runLoop f s ops).2.2)) ∧
    (runLoop f s (⟨CMD_SET, [], none⟩ :: ops) =
      ((runLoop f s ops).1, none :: (runLoop f s ops).2.1, (runLoop f s ops).2.2)) :=
  ⟨rfl, rfl, rfl, rfl⟩

/-- Joining segments back with a separator, the inverse of `splitAll`; used
to state what "removing the last `n` segments" means. -/
def joinAll (sep : Char) : List (List Char) → List Char
  | [] => []
  | [s] => s
  | s :: ss => s ++ sep :: joinAll sep ss

theorem rfindSep_none {p : List Char} (h : Path.rfindSep p = none) : Path.SEP ∉ p := by
  induction p with
  | nil => simp
  | cons c cs ih =>
    unfold Path.rfindSep at h
    cases hr : Path.rfindSep cs with
    | some i => rw [hr] at h; simp at h
    | none =>
      rw [hr] at h
      by_cases hc : c = Path.SEP
      · rw [if_pos hc] at h; simp at h
      · simp only [List.mem_cons, not_or]
        exact ⟨fun he => hc he.symm, ih hr⟩

theorem rfindSep_lt_length {p : List Char} {x : Nat} (h : Path.rfindSep p = some x) :
    x < p.length := by
  induction p generalizing x with
  | nil => simp [Path.rfindSep] at h
  | cons c cs ih =>
    unfold Path.rfindSep at h
    cases hr : Path.rfindSep cs with
    | some i =>
      rw [hr] at h
      have hx : x = i + 1 := (Option.some.inj h).symm
      have := ih hr
      simp only [List.length_cons]
      omega
    | none =>
      rw [hr] at h
      by_cases hc : c = Path.SEP
      · rw [if_pos hc] at h
        have hx : x = 0 := (Option.some.inj h).symm
        simp only [List.length_cons]
        omega
      · rw [if_neg hc] at h; simp at h

theorem splitAll_no_sep {sep : Char} {p : List Char} (h : sep ∉ p) :
    splitAll sep p = [p] := by
  induction p with
  | nil => rfl
  | cons c cs ih =>
    simp only [List.mem_cons, not_or] at h
    have hc : ¬ c = sep := fun he => h.1 he.symm
    simp [splitAll, hc, ih h.2]

theorem splitAll_cons_ne {c sep : Char} (hc : ¬ c = sep) {cs t : List Char}
    {ts : List (List Char)} (h : splitAll sep cs = t :: ts) :
    splitAll sep (c :: cs) = (c :: t) :: ts := by
  simp [splitAll, hc, h]

theorem splitAll_rfind {p : List Char} {x : Nat} (h : Path.rfindSep p = some x) :
    splitAll Path.SEP p = splitAll Path.SEP (p.take x) ++ [p.drop (x + 1)] := by
  induction p generalizing x with
  | nil => simp [Path.rfindSep] at h
  | cons c cs ih =>
    unfold Path.rfindSep at h
    cases hr : Path.rfindSep cs with
    | some i =>
      rw [hr] at h
      have hx : x = i + 1 := (Option.some.inj h).symm
      subst hx
      have ihc := ih hr
      simp only [List.take_succ_cons, List.drop_succ_cons]
      by_cases hc : c = Path.SEP
      · subst hc
        simp only [splitAll, if_pos]
        rw [ihc]
        simp
      · cases hq : splitAll Path.SEP (cs.take i) with
        | nil => exact absurd hq (splitAll_ne_nil _ _)
        | cons t ts =>
          rw [hq] at ihc
          rw [splitAll_cons_ne hc (by rw [ihc]; rfl), splitAll_cons_ne hc hq]
          rfl
    | none =>
      rw [hr] at h
      by_cases hc : c = Path.SEP
      · rw [if_pos hc] at h
        have hx : x = 0 := (Option.some.inj h).symm
        subst hx
        subst hc
        simp only [List.take_zero, List.drop_succ_cons, List.drop_zero]
        show [] :: splitAll Path.SEP cs = splitAll Path.SEP [] ++ [cs]
        rw [splitAll_no_sep (rfindSep_none hr)]
        rfl
      · rw [if_neg hc] at h; simp at h

theorem joinAll_splitAll (sep : Char) (p : List Char) :
    joinAll sep (splitAll sep p) = p := by
  induction p with
  | nil => rfl
  | cons c cs ih =>
    by_cases hc : c = sep
    · cases hq : splitAll sep cs with
      | nil => exact absurd hq (splitAll_ne_nil _ _)
      | cons t ts =>
        rw [hq] at ih
        have e : splitAll sep (c :: cs) = [] :: t :: ts := by simp [splitAll, hc, hq]
        rw [e]
        show sep :: joinAll sep (t :: ts) = c :: cs
        rw [ih, hc]
    · cases hq : splitAll sep cs with
      | nil => exact absurd hq (splitAll_ne_nil _ _)
      | cons t ts =>
        rw [hq] at ih
        rw [splitAll_cons_ne hc hq]
        cases ts with
        | nil =>
          show c :: t = c :: cs
          rw [show t = cs from ih]
        | cons u us =>
          show (c :: t) ++ sep :: joinAll sep (u :: us) = c :: cs
          rw [List.cons_append, show t ++ sep :: joinAll sep (u :: us) = cs from ih]

theorem trimAux_ignore (p : List Char) (m : Option (List Char)) (c : Nat) :
    Path.trimAux p m (c + 1) = Path.trimAux p none (c + 1) := by
  cases hr : Path.rfindSep p <;> simp [Path.trimAux, hr]

/-- Claim C3 counterexample: on the one-segment path `a`, `trim(1)` returns
`(None, None)` although the path does not have fewer than one segment — the
claim's "exactly when fewer than `n` segments" boundary is wrong (the
repository's own test asserts the same for `a.b.c` and `trim(3)`). -/
theorem trim_exact_segments_cex :
    Path.trim ['a'] 1 = (none, none) ∧ ¬ ((splitAll Path.SEP ['a']).length < 1) :=
  ⟨rfl, by decide⟩

/-- Claim C3 (amended): for `n = 0`, `trim` returns the whole path and no
removed segment; for `n ≥ 1` it returns `(None, None)` exactly when the path
has at most `n` segments (not: fewer than `n`), and otherwise it removes the
last `n` segments, returning the path joined from the remaining segments
together with the segment removed last (the `n`-th from the end). -/
theorem trim_characterization (n : Nat) (p : List Char) :
    if n = 0 then Path.trim p n = (some p, none)
    else if (splitAll Path.SEP p).length ≤ n then Path.trim p n = (none, none)
    else Path.trim p n =
      (some (joinAll Path.SEP
          ((splitAll Path.SEP p).take ((splitAll Path.SEP p).length - n))),
        some ((splitAll Path.SEP p).getD ((splitAll Path.SEP p).length - n) [])) := by
  induction n generalizing p with
  | zero => rw [if_pos rfl]; rfl
  | succ n ih =>
    rw [if_neg (Nat.succ_ne_zero n)]
    cases hr : Path.rfindSep p with
    | none =>
      rw [splitAll_no_sep (rfindSep_none hr)]
      rw [if_pos (by simp)]
      simp [Path.trim, Path.trimAux, hr]
    | some x =>
      have hsplit := splitAll_rfind hr
      have hqpos : 0 < (splitAll Path.SEP (p.take x)).length :=
        List.length_pos.mpr (splitAll_ne_nil _ _)
      have hlen : (splitAll Path.SEP p).length =
          (splitAll Path.SEP (p.take x)).length + 1 := by
        rw [hsplit]; simp
      have htrim1 : Path.trim p (n + 1) =
          Path.trimAux (p.take x) (some (p.drop (x + 1))) n := by
        simp [Path.trim, Path.trimAux, hr]
      cases n with
      | zero =>
        have hv : Path.trim p 1 = (some (p.take x), some (p.drop (x + 1))) := by
          rw [htrim1]; rfl
        rw [if_neg (by omega)]
        rw [hv, hsplit]
        simp only [List.length_append, List.length_singleton, Nat.add_sub_cancel]
        rw [List.take_append_of_le_length (le_refl _), List.take_length,
          List.getD_append_right _ _ _ _ (le_refl _), Nat.sub_self,
          joinAll_splitAll]
        rfl
      | succ n' =>
        have h2 : Path.trim p (n' + 1 + 1) = Path.trim (p.take x) (n' + 1) := by
          rw [htrim1, trimAux_ignore]; rfl
        have ihq := ih (p.take x)
        rw [if_neg (Nat.succ_ne_zero n')] at ihq
        by_cases hle : (splitAll Path.SEP (p.take x)).length ≤ n' + 1
        · rw [if_pos hle] at ihq
          rw [if_pos (by omega)]
          rw [h2]
          exact ihq
        · rw [if_neg hle] at ihq
          rw [if_neg (by omega)]
          rw [h2, ihq, hsplit]
          simp only [List.length_append, List.length_singleton]
          have hj : (splitAll Path.SEP (p.take x)).length + 1 - (n' + 1 + 1) =
              (splitAll Path.SEP (p.take x)).length - (n' + 1) := by omega
          rw [hj]
          have hjlt : (splitAll Path.SEP (p.take x)).length - (n' + 1) <
              (splitAll Path.SEP (p.take x)).length := by omega
          rw [List.take_append_of_le_length (le_of_lt hjlt),
            List.getD_append _ _ _ _ hjlt]
